import Mathlib

/-!
Verification development for the gongsi-analyzer RAG backend
(`python_scripts/`): a shallow embedding, over `List Char` text and `ℚ`
scores, of the document chunker (`utils/chunking.py`), the embedding /
retrieval service (`services/embedding_service.py`), the confidence
heuristic (`agents/analysis_agent.py`), the news-inclusion decision
(`workflow.py`), and the batch query endpoint (`api/query.py`),
together with theorems settling the specification's claims about them.

Modelling conventions:
* Python `str` values are `List Char`; Python `float` scores are `ℚ`.
* External effectful collaborators (the OpenAI embedding API, the
  ChromaDB index, the per-question query workflow) are passed in as
  function parameters, exactly where the Python object holds a client
  handle; likewise the tiktoken tokenizer of the chunker is a
  `tokenCount : List Char → Nat` parameter (`self.encoding`).
* Fallible Python code (exceptions) is modelled with `Except`.
-/

namespace Gongsi

/-- Python whitespace for `\s` / `str.split()` / `str.strip()`:
space, tab, newline, carriage return, vertical tab, form feed.
(The unicode extras of Python's definition never occur in the inputs
treated here.) -/
def isPySpace (c : Char) : Bool :=
  c = ' ' || c = '\t' || c = '\n' || c = '\r' || c = '\x0b' || c = '\x0c'

/-- Python `str.strip()`: drop whitespace from both ends. -/
def pyStrip (s : List Char) : List Char :=
  ((s.dropWhile isPySpace).reverse.dropWhile isPySpace).reverse

/-- Python `str.lower()`, characterwise.  `Char.toLower` agrees with
Python on ASCII; Korean syllables have no case and are fixed by both. -/
def lowerL (s : List Char) : List Char := s.map Char.toLower

/-- Python `str.split()` with no argument: the maximal runs of
non-whitespace characters, in order (splitting on whitespace runs and
discarding empty pieces). -/
def pyWords (s : List Char) : List (List Char) :=
  (s.splitOnP isPySpace).filter (fun w => w ≠ [])

/-- `models/schemas.py` `DocumentChunk` (the fields the verified
properties read; `page`/`metadata` carry no verified content and are
omitted).  The Python field `section` is renamed `sectionName` because
`section` is a Lean keyword. -/
structure DocumentChunk where
  chunk_id : List Char
  document_id : List Char
  content : List Char
  chunk_type : List Char
  sectionName : List Char
deriving DecidableEq

/-! ## `EmbeddingService._rerank_by_keywords` and
`EmbeddingService.semantic_search_with_rerank`
(`services/embedding_service.py` lines 205-245) -/

/-- `set(query.lower().split())` -/
def wordSet (s : List Char) : Finset (List Char) :=
  (pyWords (lowerL s)).toFinset

/-- The keyword matching score of `_rerank_by_keywords`:
`len(query_words & content_words) / len(query_words)`.
Only used on the path where `len(query_words) ≠ 0`. -/
def keywordScore (query : List Char) (chunk : DocumentChunk) : ℚ :=
  (((wordSet query) ∩ (wordSet chunk.content)).card : ℚ) / ((wordSet query).card : ℚ)

/-- The blended score of `_rerank_by_keywords`:
`similarity * 0.7 + keyword_score * 0.3`. -/
def blendedScore (query : List Char) (cs : DocumentChunk × ℚ) : DocumentChunk × ℚ :=
  (cs.1, cs.2 * (7/10 : ℚ) + keywordScore query cs.1 * (3/10 : ℚ))

/-- `EmbeddingService._rerank_by_keywords`.  Scores every candidate with
the blended score, then sorts descending (Python's stable `list.sort`
with `reverse=True`).  When `query_words` is empty the score of the
first candidate divides by `len(query_words) = 0`, which in Python
raises `ZeroDivisionError`: modelled as `Except.error`. -/
def rerankByKeywords (query : List Char) (candidates : List (DocumentChunk × ℚ)) :
    Except Unit (List (DocumentChunk × ℚ)) := do
  let scored ← candidates.mapM (fun cs =>
    if (wordSet query).card = 0 then Except.error ()
    else Except.ok (blendedScore query cs))
  pure (scored.mergeSort (fun a b => decide (b.2 ≤ a.2)))

/-- `EmbeddingService.semantic_search_with_rerank`, downstream of the
first-stage vector search: the `candidates` parameter is whatever
`search_similar_chunks` returned (modelled separately). -/
def semanticSearchWithRerank (query : List Char)
    (candidates : List (DocumentChunk × ℚ)) (rerank_top_k : Nat) :
    Except Unit (List (DocumentChunk × ℚ)) :=
  if candidates = [] then Except.ok []
  else (rerankByKeywords query candidates).map (fun l => l.take rerank_top_k)

/-- A concrete chunk used by witness instantiations. -/
def sampleChunk : DocumentChunk :=
  DocumentChunk.mk ("c1").data ("d1").data ("alpha x").data ("text").data ("others").data

/-! ## `EmbeddingService.search_similar_chunks`
(`services/embedding_service.py` lines 98-151).
The ChromaDB call is external; one parsed row of its answer
(`ids`/`documents`/`metadatas`/`distances`, zipped) is a `RawHit`. -/

/-- The metadata dict fields read back from the index
(`metadata.get(key, default)`). -/
structure ChromaMetadata where
  document_id : Option (List Char)
  chunk_type : Option (List Char)
  sectionName : Option (List Char)
deriving DecidableEq

/-- One row of the raw ChromaDB query result. -/
structure RawHit where
  id : List Char
  document : List Char
  metadata : ChromaMetadata
  distance : ℚ
deriving DecidableEq

/-- The `DocumentChunk` rebuilt from a raw hit in the result-parsing
loop of `search_similar_chunks`. -/
def chunkOfHit (h : RawHit) : DocumentChunk :=
  DocumentChunk.mk h.id (h.metadata.document_id.getD [])
    h.document (h.metadata.chunk_type.getD ("text").data)
    (h.metadata.sectionName.getD [])

/-- The result-parsing loop of `search_similar_chunks`: similarity is
`1 - distance` and a hit is kept exactly when
`similarity >= min_similarity`. -/
def searchSimilarChunks (hits : List RawHit) (min_similarity : ℚ) :
    List (DocumentChunk × ℚ) :=
  hits.filterMap (fun h =>
    let similarity := 1 - h.distance
    if min_similarity ≤ similarity then some (chunkOfHit h, similarity) else none)

/-! ## `EmbeddingService._create_embeddings` / `embed_chunks`
(`services/embedding_service.py` lines 36-80).
The OpenAI embeddings API is the parameter `api`; `api ts = none`
models the call raising an exception. -/

/-- An embedded chunk (`models/schemas.py` `EmbeddedChunk`; the merged
metadata dict carries no verified content and is omitted). -/
structure EmbeddedChunk where
  chunk_id : List Char
  document_id : List Char
  content : List Char
  embedding : List ℚ
deriving DecidableEq

/-- `EmbeddingService._create_embeddings`: on API failure it catches the
exception and substitutes `[[0.0] * 1536] * len(texts)` — it never
raises, which is why its model returns a plain list, not `Except`. -/
def createEmbeddings (api : List (List Char) → Option (List (List ℚ)))
    (texts : List (List Char)) : List (List ℚ) :=
  match api texts with
  | some embeddings => embeddings
  | none => List.replicate texts.length (List.replicate 1536 (0 : ℚ))

/-- The per-batch inner loop of `embed_chunks`:
`zip(batch, batch_embeddings)` building `EmbeddedChunk`s. -/
def embedBatch (batch : List DocumentChunk) (embeddings : List (List ℚ)) :
    List EmbeddedChunk :=
  batch.zipWith (fun chunk e => EmbeddedChunk.mk chunk.chunk_id chunk.document_id
    chunk.content e) embeddings

/-- The batching loop `for i in range(0, len(chunks), self.batch_size)`
of `embed_chunks`, as fuelled recursion (the fuel `chunks.length`
suffices whenever `batch_size ≥ 1`, which `range` requires anyway). -/
def embedChunksAux (api : List (List Char) → Option (List (List ℚ)))
    (batch_size : Nat) : Nat → List DocumentChunk → List EmbeddedChunk
  | _, [] => []
  | 0, _ => []
  | fuel + 1, l =>
      embedBatch (l.take batch_size)
          (createEmbeddings api ((l.take batch_size).map (fun c => c.content))) ++
        embedChunksAux api batch_size fuel (l.drop batch_size)

/-- `EmbeddingService.embed_chunks` (without the final
`_store_embeddings` side effect, which returns nothing). -/
def embedChunks (api : List (List Char) → Option (List (List ℚ)))
    (batch_size : Nat) (chunks : List DocumentChunk) : List EmbeddedChunk :=
  embedChunksAux api batch_size chunks.length chunks

/-! ## `AnalysisAgent._calculate_confidence`
(`agents/analysis_agent.py` lines 323-355) -/

/-- `re.search(r"\d+%|\d+억|\d+만|\d+년|\d+월", analysis)`: the search
succeeds exactly when some digit is immediately followed by one of the
five unit characters (`\d+` then the unit; any longer digit run
containing such a match contains an adjacent digit-unit pair). -/
def hasNumericUnit (s : List Char) : Bool :=
  (s.zip s.tail).any (fun p =>
    p.1.isDigit && (p.2 = '%' || p.2 = '억' || p.2 = '만' || p.2 = '년' || p.2 = '월'))

/-- The four fixed Korean uncertainty phrases. -/
def uncertaintyPhrases : List (List Char) :=
  [("확실하지 않").data, ("명확하지 않").data, ("정보가 부족").data, ("판단하기 어려").data]

/-- `AnalysisAgent._calculate_confidence`. -/
def calculateConfidence (chunks : List DocumentChunk) (analysis : List Char) : ℚ :=
  let c0 : ℚ := 1/2
  let c1 := if chunks.length ≥ 3 then c0 + 2/10
    else if chunks.length ≥ 1 then c0 + 1/10 else c0
  let c2 := if analysis.length > 500 then c1 + 1/10 else c1
  let c3 := if hasNumericUnit analysis then c2 + 1/10 else c2
  let c4 := if uncertaintyPhrases.any (fun p => decide (p <:+: analysis)) then c3 - 1/10
    else c3
  min (max c4 0) 1

/-! ## `DocumentQueryWorkflow._should_include_news`
(`workflow.py` lines 248-283) -/

def timeKeywords : List (List Char) :=
  [("최근").data, ("현재").data, ("요즘").data, ("지금").data, ("올해").data,
   ("작년").data, ("전망").data, ("계획").data, ("향후").data]

def marketKeywords : List (List Char) :=
  [("경쟁").data, ("시장").data, ("업계").data, ("동향").data, ("트렌드").data,
   ("비교").data, ("경쟁사").data]

def realtimeKeywords : List (List Char) :=
  [("주가").data, ("시세").data, ("평가").data, ("전문가").data, ("분석가").data,
   ("의견").data, ("전망").data]

def changeKeywords : List (List Char) :=
  [("증가").data, ("감소").data, ("성장").data, ("하락").data, ("변화").data,
   ("개선").data, ("악화").data]

/-- `all_keywords = time + market + realtime + change` (the duplicate
`전망` of the source is kept). -/
def allNewsKeywords : List (List Char) :=
  timeKeywords ++ marketKeywords ++ realtimeKeywords ++ changeKeywords

/-- `DocumentQueryWorkflow._should_include_news`: count the keywords
occurring in the lowercased question; include news iff the count is at
least 1. -/
def shouldIncludeNews (question : List Char) : Bool :=
  let question_lower := lowerL question
  let matched_count :=
    (allNewsKeywords.filter (fun k => decide (k <:+: question_lower))).length
  matched_count ≥ 1

/-! ## `batch_query` (`api/query.py` lines 163-216).
`query_document` (retrieval + LLM call) is external to this endpoint's
control flow and is the parameter `processOne`; a Python exception from
it is `Except.error` with the stringified message, which the loop's
`except Exception` turns into a per-question error entry.  The document
lookup `get_document_chunks` result is the parameter `docChunks`. -/

/-- One entry of the accumulated `results` list. -/
structure BatchEntry (ρ : Type) where
  question : List Char
  success : Bool
  result : Option ρ
  errMsg : Option (List Char)
deriving DecidableEq

/-- The body of the per-question loop: try `query_document`, record
success or failure. -/
def entryFor {ρ : Type} (processOne : List Char → Except (List Char) ρ)
    (q : List Char) : BatchEntry ρ :=
  match processOne q with
  | Except.ok r => BatchEntry.mk q true (some r) none
  | Except.error e => BatchEntry.mk q false none (some e)

/-- The successful response payload of `batch_query`. -/
structure BatchResponse (ρ : Type) where
  document_id : List Char
  total_questions : Nat
  successful_answers : Nat
  results : List (BatchEntry ρ)
deriving DecidableEq

def batchLimitMsg : List Char := ("한 번에 최대 10개의 질문까지 처리할 수 있습니다.").data

def docNotFoundMsg : List Char := ("문서를 찾을 수 없습니다.").data

/-- `batch_query`: reject more than 10 questions with a 400 before
anything runs; 404 when the document has no chunks; otherwise process
every question sequentially, accumulating per-question entries. -/
def batchQuery {ρ : Type} (processOne : List Char → Except (List Char) ρ)
    (docChunks : List DocumentChunk) (document_id : List Char)
    (questions : List (List Char)) :
    Except (Nat × List Char) (BatchResponse ρ) :=
  if 10 < questions.length then
    Except.error (400, batchLimitMsg)
  else if docChunks = [] then
    Except.error (404, docNotFoundMsg)
  else
    let results := questions.map (entryFor processOne)
    Except.ok (BatchResponse.mk document_id questions.length
      ((results.filter (fun r => r.success)).length) results)

/-! ## The chunker (`utils/chunking.py`, `HybridDocumentChunker`).

The tiktoken encoder (`self.encoding`) is external: it appears as a
parameter `tc : List Char → Nat` (`len(self.encoding.encode(text))`),
and the configured budget `settings.MAX_TOKENS_PER_CHUNK` as
`maxTokens` (the repository configures 1000).

The three section regexes' semantics are embedded directly: each
pattern is an alternation of keyword alternatives (literals separated
by `\s*`), followed by a lazy `.*?` (DOTALL) and the lookahead
`(?=\n\n|\n[IVX]+\.|\n\d+\.)`.  `re.search` takes the leftmost
position where some alternative matches and a lookahead position
exists at or after the keyword, and the lazy `.*?` stops at the first
such lookahead position.  `\s*` is matched greedily without
backtracking, which is equivalent here because every following literal
starts with a (non-whitespace) Korean syllable.  `re.IGNORECASE` only
affects the `[IVX]` class of the lookahead (the keywords are Korean),
so the class includes the lowercase letters. -/

/-- A token of a keyword alternative: a literal run or `\s*`. -/
inductive RTok where
  | lit : List Char → RTok
  | ws : RTok
deriving DecidableEq

/-- Match a keyword alternative at the head of `s`; returns the number
of consumed characters. -/
def matchTok : List RTok → List Char → Option Nat
  | [], _ => some 0
  | RTok.lit l :: ts, s =>
      if l.isPrefixOf s then (matchTok ts (s.drop l.length)).map (· + l.length)
      else none
  | RTok.ws :: ts, s =>
      let k := (s.takeWhile isPySpace).length
      (matchTok ts (s.drop k)).map (· + k)

/-- `[IVXivx]` (the `[IVX]` class under `re.IGNORECASE`). -/
def isRoman (c : Char) : Bool :=
  c = 'I' || c = 'V' || c = 'X' || c = 'i' || c = 'v' || c = 'x'

/-- After at least one class character has been read: does some
continuation of the run reach a literal `.`?  (Backtracking of a greedy
`+` is existential.) -/
def dotAfterRun (cls : Char → Bool) : List Char → Bool
  | [] => false
  | c :: rest => c = '.' || (cls c && dotAfterRun cls rest)

/-- `cls+\.` at the head of `s`. -/
def runThenDot (cls : Char → Bool) : List Char → Bool
  | [] => false
  | c :: rest => cls c && dotAfterRun cls rest

/-- The lookahead `(?=\n\n|\n[IVX]+\.|\n\d+\.)` tested at the position
where `s` starts. -/
def lookaheadAt : List Char → Bool
  | [] => false
  | c :: rest =>
      c = '\n' &&
        ((match rest with | c' :: _ => c' = '\n' | [] => false) ||
          runThenDot isRoman rest || runThenDot Char.isDigit rest)

/-- Least offset at which the lookahead holds (the lazy `.*?`). -/
def findLookahead : List Char → Option Nat
  | [] => none
  | c :: rest =>
      if lookaheadAt (c :: rest) then some 0
      else (findLookahead rest).map (· + 1)

/-- Match the whole section pattern at the head of `s`: alternatives in
order, then the shortest lazy extension to a lookahead position.
Returns the total matched length (`match.group(0)` size). -/
def matchPatternAt (alts : List (List RTok)) (s : List Char) : Option Nat :=
  alts.findSome? (fun alt =>
    (matchTok alt s).bind (fun k => (findLookahead (s.drop k)).map (fun e => k + e)))

/-- `re.search`: scan positions left to right; returns (start, length)
of the leftmost match. -/
def searchPattern (alts : List (List RTok)) : List Char → Option (Nat × Nat)
  | [] => none
  | c :: rest =>
      match matchPatternAt alts (c :: rest) with
      | some len => some (0, len)
      | none => (searchPattern alts rest).map (fun p => (p.1 + 1, p.2))

/-- `content[st : st+len]`. -/
def sliceAt (s : List Char) (st len : Nat) : List Char := (s.drop st).take len

/-- A single-literal keyword alternative. -/
def kw1 (a : String) : List RTok := [RTok.lit a.data]

/-- `a\s*b`. -/
def kw2 (a b : String) : List RTok := [RTok.lit a.data, RTok.ws, RTok.lit b.data]

/-- `a\s*b\s*c`. -/
def kw3 (a b c : String) : List RTok :=
  [RTok.lit a.data, RTok.ws, RTok.lit b.data, RTok.ws, RTok.lit c.data]

/-- The fixed `section_patterns` table of `_extract_sections`, in
source order. -/
def sectionPatterns : List (List Char × List (List RTok)) :=
  [(("company_overview").data, [kw2 "회사의" "개요", kw1 "기업개요", kw1 "회사개요"]),
   (("business_content").data, [kw2 "사업의" "내용", kw2 "주요" "사업", kw1 "사업현황"]),
   (("financial_status").data,
     [kw3 "재무에" "관한" "사항", kw1 "재무상태", kw1 "재무제표", kw1 "재무현황"]),
   (("management_analysis").data,
     [kw2 "경영진" "분석", kw2 "재무성과" "분석", kw1 "경영성과"]),
   (("risk_factors").data, [kw1 "위험요인", kw2 "리스크" "요인", kw1 "사업위험"]),
   (("future_plans").data, [kw2 "향후" "계획", kw1 "사업전망", kw1 "미래전략"])]

def othersName : List Char := ("others").data

/-- First occurrence index of `sep` in `s` (`str.find`). -/
def findOcc (sep : List Char) : List Char → Option Nat
  | [] => if sep = [] then some 0 else none
  | c :: rest =>
      if sep.isPrefixOf (c :: rest) then some 0
      else (findOcc sep rest).map (· + 1)

/-- Python `str.replace(old, "")` (all non-overlapping occurrences,
left to right), fuelled by the string length (`old` is nonempty at
every call site, so each removal consumes at least one character). -/
def replaceAllAux (old : List Char) : Nat → List Char → List Char
  | _, [] => []
  | 0, s => s
  | fuel + 1, c :: rest =>
      if old ≠ [] ∧ old.isPrefixOf (c :: rest) then
        replaceAllAux old fuel ((c :: rest).drop old.length)
      else c :: replaceAllAux old fuel rest

def replaceAll (old s : List Char) : List Char := replaceAllAux old s.length s

/-- The per-pattern `re.search` results of `_extract_sections`, with
their spans: each pattern is searched against the original `content`
(the source's `re.search(pattern, content, ...)`), not against the
shrinking `remaining_content`. -/
def extractSectionSpans (content : List Char) : List (List Char × Nat × Nat) :=
  sectionPatterns.filterMap (fun np =>
    (searchPattern np.2 content).map (fun sl => (np.1, sl.1, sl.2)))

/-- The `sections` dict built by the loop of `_extract_sections` (in
insertion order), before the `others` entry.  The loop's two
accumulations are independent: `sections[name] = match` only appends,
and `remaining_content` is only consumed by `remainingAfter` below. -/
def extractSectionsCore (content : List Char) : List (List Char × List Char) :=
  sectionPatterns.filterMap (fun np =>
    (searchPattern np.2 content).map (fun sl => (np.1, sliceAt content sl.1 sl.2)))

/-- The final `remaining_content`: every matched section text replaced
by the empty string, pattern by pattern. -/
def remainingAfter (content : List Char) : List Char :=
  sectionPatterns.foldl (fun rem np =>
    match searchPattern np.2 content with
    | some sl => replaceAll (sliceAt content sl.1 sl.2) rem
    | none => rem) content

/-- `HybridDocumentChunker._extract_sections`. -/
def extractSections (content : List Char) : List (List Char × List Char) :=
  extractSectionsCore content ++
    (if pyStrip (remainingAfter content) ≠ [] then [(othersName, remainingAfter content)]
     else [])

/-! ### Table detection and table chunking -/

/-- One repetition `.*MARK.*\n` starting at the head of `s`: consumes
up to and including the first newline, provided `MARK` occurs before
it.  Returns the consumed length. -/
def markLine (mark : Char) (s : List Char) : Option Nat :=
  match s.findIdx? (fun c => c = '\n') with
  | none => none
  | some j => if mark ∈ s.take j then some (j + 1) else none

/-- Maximal greedy run of `.*MARK.*\n` repetitions: (count, consumed). -/
def markRunAux (mark : Char) : Nat → List Char → Nat × Nat
  | 0, _ => (0, 0)
  | fuel + 1, s =>
      match markLine mark s with
      | none => (0, 0)
      | some c =>
          let kt := markRunAux mark fuel (s.drop c)
          (kt.1 + 1, c + kt.2)

def markRun (mark : Char) (s : List Char) : Nat × Nat := markRunAux mark s.length s

/-- Greedy `(?:.*\n)*` at the head of `s`: consumes every complete
line, i.e. up to and including the last newline (0 if none). -/
def anyLinesLen (s : List Char) : Nat :=
  s.length - (s.reverse.takeWhile (fun c => c ≠ '\n')).length

/-- One attempt of the table pattern
`((?:.*\|.*\n){2,}|(?:.*─.*\n)+(?:.*\n)*)` at the head of `s`:
alternative 1 needs at least two pipe lines; otherwise alternative 2
needs at least one `─` line and then swallows all remaining complete
lines.  Returns the matched length. -/
def matchTableAt (s : List Char) : Option Nat :=
  let r1 := markRun '|' s
  if 2 ≤ r1.1 then some r1.2
  else
    let r2 := markRun '─' s
    if 1 ≤ r2.1 then some (r2.2 + anyLinesLen (s.drop r2.2)) else none

/-- The shared scan of `re.findall` (`_chunk_tables`) and `re.sub`
(`_remove_tables`) with the table pattern: non-overlapping matches left
to right, advancing one character on failure.  Returns (matches,
text with the matches removed).  Every match consumes at least one
character, so the length fuel suffices. -/
def scanTablesAux : Nat → List Char → List (List Char) × List Char
  | _, [] => ([], [])
  | 0, s => ([], s)
  | fuel + 1, c :: rest =>
      match matchTableAt (c :: rest) with
      | some len =>
          let tr := scanTablesAux fuel ((c :: rest).drop len)
          (((c :: rest).take len) :: tr.1, tr.2)
      | none =>
          let tr := scanTablesAux fuel rest
          (tr.1, c :: tr.2)

/-- `re.findall(table_pattern, content, re.MULTILINE)`. -/
def tablesFindall (content : List Char) : List (List Char) :=
  (scanTablesAux content.length content).1

/-- `HybridDocumentChunker._remove_tables`. -/
def removeTables (content : List Char) : List Char :=
  (scanTablesAux content.length content).2

/-- `^\s*\d+\s+[가-힣]+\s+\d+` tested at a line-start suffix.  All five
pieces are over pairwise disjoint character classes, so the greedy
scans need no backtracking. -/
def isHangul (c : Char) : Bool := 0xAC00 ≤ c.toNat && c.toNat ≤ 0xD7A3

def numDataRowAt (s : List Char) : Bool :=
  let s1 := s.dropWhile isPySpace
  let s2 := s1.dropWhile Char.isDigit
  let s3 := s2.dropWhile isPySpace
  let s4 := s3.dropWhile isHangul
  let s5 := s4.dropWhile isPySpace
  (s1.takeWhile Char.isDigit) ≠ [] && (s2.takeWhile isPySpace) ≠ [] &&
    (s3.takeWhile isHangul) ≠ [] && (s4.takeWhile isPySpace) ≠ [] &&
    (s5.takeWhile Char.isDigit) ≠ []

/-- The suffixes starting right after each newline (the non-initial
`^` positions of `re.MULTILINE`). -/
def afterNewlineSuffixes : List Char → List (List Char)
  | [] => []
  | c :: rest =>
      (if c = '\n' then [rest] else []) ++ afterNewlineSuffixes rest

/-- `HybridDocumentChunker._contains_table`: the four indicator
regexes.  `\|.*\|` and `┌.*┐` cannot cross a newline (`.` without
DOTALL), so they are tested per line; `─{3,}` is three consecutive
`─`; the numeric-data-row pattern is tested at every line start. -/
def containsTable (content : List Char) : Bool :=
  let lines := content.splitOn '\n'
  lines.any (fun l => 2 ≤ (l.filter (fun c => c = '|')).length) ||
    lines.any (fun l =>
      match l.dropWhile (fun c => c ≠ '┌') with
      | [] => false
      | _ :: rest => rest.any (fun c => c = '┐')) ||
    decide ((['─', '─', '─'] : List Char) <:+: content) ||
    (numDataRowAt content || (afterNewlineSuffixes content).any numDataRowAt)

/-! ### Chunk ids and chunk construction -/

/-- Decimal digit characters (`str(i)` in the f-string chunk ids). -/
def natRepr (n : Nat) : List Char :=
  if n = 0 then ['0'] else ((Nat.digits 10 n).reverse.map Nat.digitChar)

/-- `f"{document_id}_{type}_{section}_{index}"`. -/
def mkChunkId (docId ty sec : List Char) (i : Nat) : List Char :=
  docId ++ ('_' :: ty) ++ ('_' :: sec) ++ ('_' :: natRepr i)

def tableTok : List Char := ("table").data

def textTok : List Char := ("text").data

def mkTableChunk (docId sec : List Char) (i : Nat) (content : List Char) :
    DocumentChunk :=
  DocumentChunk.mk (mkChunkId docId tableTok sec i) docId content tableTok sec

def mkTextChunk (docId sec : List Char) (i : Nat) (content : List Char) :
    DocumentChunk :=
  DocumentChunk.mk (mkChunkId docId textTok sec i) docId content textTok sec

/-- `HybridDocumentChunker._chunk_tables`: enumerate the found tables,
keep those whose stripped text is longer than 50 characters. -/
def chunkTables (content sec docId : List Char) : List DocumentChunk :=
  (tablesFindall content).enum.filterMap (fun it =>
    if 50 < (pyStrip it.2).length then some (mkTableChunk docId sec it.1 (pyStrip it.2))
    else none)

/-! ### Semantic chunking -/

def nlnl : List Char := ['\n', '\n']

/-- Split on a non-empty separator sequence (Python `str.split(sep)`),
fuelled by the string length. -/
def splitOnSeqAux (sep : List Char) : Nat → List Char → List (List Char)
  | 0, s => [s]
  | fuel + 1, s =>
      match findOcc sep s with
      | none => [s]
      | some i => s.take i :: splitOnSeqAux sep fuel (s.drop (i + sep.length))

def splitOnSeq (sep s : List Char) : List (List Char) :=
  if sep = [] then [s] else splitOnSeqAux sep s.length s

/-- `HybridDocumentChunker._get_overlap_text`: the last two
`"."`-separated sentences, re-joined and stripped. -/
def getOverlapText (text : List Char) : List Char :=
  let sentences := splitOnSeq ['.'] text
  let overlap :=
    if 2 < sentences.length then sentences.drop (sentences.length - 2) else sentences
  pyStrip (List.intercalate ['.'] overlap)

/-- `[p.strip() for p in content.split("\n\n") if p.strip()]`. -/
def paragraphsOf (content : List Char) : List (List Char) :=
  ((splitOnSeq nlnl content).map pyStrip).filter (fun p => p ≠ [])

/-- The loop state of `_semantic_chunking`: emitted chunks, the running
buffer `current_chunk`, and `chunk_count`. -/
structure ChunkAcc where
  chunks : List DocumentChunk
  current : List Char
  count : Nat

/-- One iteration of the paragraph loop of `_semantic_chunking`:
`test_chunk` is the buffer extended by the paragraph; within budget it
replaces the buffer; over budget the buffer (if nonempty) is flushed as
a chunk and the next buffer is seeded with the overlap window (the
source guards the flush and the re-seed by the same
`if current_chunk:` condition, merged here into one branch). -/
def semStep (tc : List Char → Nat) (maxTokens : Nat) (docId sec : List Char)
    (acc : ChunkAcc) (paragraph : List Char) : ChunkAcc :=
  if tc (if acc.current ≠ [] then acc.current ++ nlnl ++ paragraph else paragraph) ≤
      maxTokens then
    ChunkAcc.mk acc.chunks
      (if acc.current ≠ [] then acc.current ++ nlnl ++ paragraph else paragraph)
      acc.count
  else if acc.current ≠ [] then
    ChunkAcc.mk (acc.chunks ++ [mkTextChunk docId sec acc.count acc.current])
      (getOverlapText acc.current ++ nlnl ++ paragraph) (acc.count + 1)
  else
    ChunkAcc.mk acc.chunks paragraph acc.count

/-- `HybridDocumentChunker._semantic_chunking`. -/
def semanticChunking (tc : List Char → Nat) (maxTokens : Nat)
    (content sec docId : List Char) : List DocumentChunk :=
  let final := (paragraphsOf content).foldl (semStep tc maxTokens docId sec)
    (ChunkAcc.mk [] [] 0)
  if final.current ≠ [] then
    final.chunks ++ [mkTextChunk docId sec final.count final.current]
  else final.chunks

/-- `HybridDocumentChunker._process_section`. -/
def processSection (tc : List Char → Nat) (maxTokens : Nat)
    (content sec docId : List Char) : List DocumentChunk :=
  let tchunks := if containsTable content then chunkTables content sec docId else []
  let content2 := if containsTable content then removeTables content else content
  let xchunks :=
    if pyStrip content2 ≠ [] then semanticChunking tc maxTokens content2 sec docId
    else []
  tchunks ++ xchunks

/-- `HybridDocumentChunker.chunk_document`. -/
def chunkDocument (tc : List Char → Nat) (maxTokens : Nat)
    (content docId : List Char) : List DocumentChunk :=
  (extractSections content).flatMap (fun nc =>
    processSection tc maxTokens nc.2 nc.1 docId)

/-- `List.mapM` over `Except` on a function that never fails is the plain map. -/
theorem mapM_ok {α β : Type} (f : α → Except Unit β) (g : α → β)
    (hf : ∀ a, f a = Except.ok (g a)) (l : List α) :
    l.mapM f = Except.ok (l.map g) := by
  induction l with
  | nil => rfl
  | cons a t ih =>
      rw [List.mapM_cons, hf a, ih]
      rfl

/-- `List.mapM` over `Except` fails as soon as its head fails. -/
theorem mapM_error {α β : Type} (f : α → Except Unit β) (a : α) (t : List α)
    (ha : f a = Except.error ()) :
    (a :: t).mapM f = Except.error () := by
  rw [List.mapM_cons, ha]
  rfl

theorem keywordScore_nonneg (query : List Char) (chunk : DocumentChunk) :
    0 ≤ keywordScore query chunk := by
  unfold keywordScore
  positivity

theorem keywordScore_le_one (query : List Char) (chunk : DocumentChunk) :
    keywordScore query chunk ≤ 1 := by
  unfold keywordScore
  rcases Nat.eq_zero_or_pos (wordSet query).card with h | h
  · simp [h]
  · rw [div_le_one (by exact_mod_cast h)]
    exact_mod_cast Finset.card_le_card (Finset.inter_subset_left)

/-- C3.  For every query with at least one whitespace-separated term and
every candidate list from the first-stage vector search,
`semantic_search_with_rerank` succeeds and returns a list in which every
entry is some input candidate rescored to
`0.7 * vector_similarity + 0.3 * |query terms ∩ chunk terms| / |query terms|`
(case-insensitive, whitespace-tokenized), sorted in non-increasing
blended score, of length at most `rerank_top_k`; and if every input
similarity lies in `[0,1]` then every blended score lies in `[0,1]`. -/
theorem rerank_blended_sorted_topk_bounded (query : List Char)
    (candidates : List (DocumentChunk × ℚ)) (rerank_top_k : Nat)
    (hq : pyWords (lowerL query) ≠ []) :
    ∃ out, semanticSearchWithRerank query candidates rerank_top_k = Except.ok out ∧
      (∀ x ∈ out, ∃ cs ∈ candidates,
        x.1 = cs.1 ∧ x.2 = cs.2 * (7/10 : ℚ) + keywordScore query cs.1 * (3/10 : ℚ)) ∧
      out.Pairwise (fun a b => b.2 ≤ a.2) ∧
      out.length ≤ rerank_top_k ∧
      ((∀ cs ∈ candidates, 0 ≤ cs.2 ∧ cs.2 ≤ 1) →
        ∀ x ∈ out, 0 ≤ x.2 ∧ x.2 ≤ 1) := by
  have hcard : (wordSet query).card ≠ 0 := by
    intro h
    exact hq ((List.toFinset_eq_empty_iff _).mp (Finset.card_eq_zero.mp h))
  have hmap : candidates.mapM (fun cs =>
      if (wordSet query).card = 0 then Except.error ()
      else Except.ok (blendedScore query cs)) =
      Except.ok (candidates.map (blendedScore query)) :=
    mapM_ok _ _ (fun a => by simp [hcard]) _
  have hrr : rerankByKeywords query candidates =
      Except.ok ((candidates.map (blendedScore query)).mergeSort
        (fun a b => decide (b.2 ≤ a.2))) := by
    unfold rerankByKeywords
    rw [hmap]
    rfl
  set sortedL := (candidates.map (blendedScore query)).mergeSort
    (fun a b => decide (b.2 ≤ a.2)) with hsorted_def
  refine ⟨sortedL.take rerank_top_k, ?_, ?_, ?_, ?_, ?_⟩
  · unfold semanticSearchWithRerank
    by_cases hc : candidates = []
    · subst hc
      simp at hsorted_def
      simp [hsorted_def]
    · simp only [if_neg hc, hrr]
      rfl
  · intro x hx
    have hx' : x ∈ sortedL := List.mem_of_mem_take hx
    have hperm := List.mergeSort_perm (candidates.map (blendedScore query))
      (fun a b => decide (b.2 ≤ a.2))
    have : x ∈ candidates.map (blendedScore query) := hperm.mem_iff.mp hx'
    rcases List.mem_map.mp this with ⟨cs, hcs, rfl⟩
    exact ⟨cs, hcs, rfl, rfl⟩
  · have hs := @List.sorted_mergeSort (DocumentChunk × ℚ)
      (fun a b => decide (b.2 ≤ a.2))
      (fun a b c hab hbc => by
        simp only [decide_eq_true_eq] at *
        exact le_trans hbc hab)
      (fun a b => by
        simp only [Bool.or_eq_true, decide_eq_true_eq]
        exact le_total b.2 a.2)
      (candidates.map (blendedScore query))
    have : sortedL.Pairwise (fun a b => b.2 ≤ a.2) := by
      refine hs.imp ?_
      intro a b h
      simp only [decide_eq_true_eq] at h
      exact h
    exact this.sublist (List.take_sublist _ _)
  · exact List.length_take_le rerank_top_k sortedL
  · intro hin x hx
    have hx' : x ∈ sortedL := List.mem_of_mem_take hx
    have hperm := List.mergeSort_perm (candidates.map (blendedScore query))
      (fun a b => decide (b.2 ≤ a.2))
    have : x ∈ candidates.map (blendedScore query) := hperm.mem_iff.mp hx'
    rcases List.mem_map.mp this with ⟨cs, hcs, rfl⟩
    rcases hin cs hcs with ⟨h0, h1⟩
    have hk0 := keywordScore_nonneg query cs.1
    have hk1 := keywordScore_le_one query cs.1
    unfold blendedScore
    constructor
    · nlinarith
    · nlinarith

/-- C3 witness: a concrete two-term query and one candidate. -/
theorem rerank_blended_sorted_topk_bounded_witness :
    pyWords (lowerL ("alpha beta").data) ≠ [] ∧
    ∃ out, semanticSearchWithRerank ("alpha beta").data
        [(sampleChunk, 1/2)] 5 = Except.ok out ∧
      (∀ x ∈ out, ∃ cs ∈ [(sampleChunk, (1/2 : ℚ))],
        x.1 = cs.1 ∧ x.2 = cs.2 * (7/10 : ℚ) +
          keywordScore ("alpha beta").data cs.1 * (3/10 : ℚ)) ∧
      out.Pairwise (fun a b => b.2 ≤ a.2) ∧
      out.length ≤ 5 ∧
      ((∀ cs ∈ [(sampleChunk, (1/2 : ℚ))], 0 ≤ cs.2 ∧ cs.2 ≤ 1) →
        ∀ x ∈ out, 0 ≤ x.2 ∧ x.2 ≤ 1) := by
  refine ⟨by decide, ?_⟩
  exact rerank_blended_sorted_topk_bounded ("alpha beta").data [(sampleChunk, 1/2)] 5 (by decide)

/-- C10.  A query whose whitespace tokenization is empty makes
`_rerank_by_keywords` divide `len(query_words & ...)` by
`len(query_words) = 0`, so on any non-empty candidate list
`semantic_search_with_rerank` raises (`ZeroDivisionError`) instead of
returning. -/
theorem rerank_empty_query_raises (query : List Char)
    (candidates : List (DocumentChunk × ℚ)) (rerank_top_k : Nat)
    (hq : pyWords (lowerL query) = []) (hc : candidates ≠ []) :
    semanticSearchWithRerank query candidates rerank_top_k = Except.error () := by
  have hcard : (wordSet query).card = 0 := by
    simp [wordSet, Finset.card_eq_zero, ← List.toFinset_eq_empty_iff, hq]
  rcases candidates with _ | ⟨a, t⟩
  · exact absurd rfl hc
  · unfold semanticSearchWithRerank rerankByKeywords
    rw [if_neg (by simp)]
    rw [mapM_error _ a t (by simp [hcard])]
    rfl

/-- C10 witness: the whitespace-only query against one candidate. -/
theorem rerank_empty_query_raises_witness :
    pyWords (lowerL ("  ").data) = [] ∧
    ([(sampleChunk, (1/2 : ℚ))] : List (DocumentChunk × ℚ)) ≠ [] ∧
    semanticSearchWithRerank ("  ").data [(sampleChunk, 1/2)] 5 = Except.error () := by
  refine ⟨by decide, by simp, ?_⟩
  exact rerank_empty_query_raises ("  ").data [(sampleChunk, 1/2)] 5 (by decide) (by simp)

/-- `filterMap` with a pointwise-weaker keep-condition yields a sublist. -/
theorem filterMap_sublist_of_imp {α β : Type} (f g : α → Option β) (l : List α)
    (h : ∀ a b, g a = some b → f a = some b) :
    (l.filterMap g).Sublist (l.filterMap f) := by
  induction l with
  | nil => simp
  | cons a t ih =>
      rw [List.filterMap_cons, List.filterMap_cons]
      cases hg : g a with
      | none =>
          cases hf : f a with
          | none => exact ih
          | some b => exact ih.trans (List.sublist_cons_self b _)
      | some b => rw [h a b hg]; exact ih.cons₂ b

/-- C4.  Every pair returned by `search_similar_chunks` with
`min_similarity = x` has similarity (`1 - cosine_distance`) at least
`x`, and on the same underlying index results, raising the threshold to
`x' ≥ x` gives a sublist of the results at `x` — so never more of
them. -/
theorem search_min_similarity_filter_monotone (hits : List RawHit) (x x' : ℚ)
    (hxx : x ≤ x') :
    (∀ p ∈ searchSimilarChunks hits x, x ≤ p.2) ∧
    (searchSimilarChunks hits x').Sublist (searchSimilarChunks hits x) ∧
    (searchSimilarChunks hits x').length ≤ (searchSimilarChunks hits x).length := by
  have hmem : ∀ p ∈ searchSimilarChunks hits x, x ≤ p.2 := by
    intro p hp
    rcases List.mem_filterMap.mp hp with ⟨h, _, hkeep⟩
    by_cases hc : x ≤ 1 - h.distance
    · simp only [if_pos hc] at hkeep
      cases hkeep
      exact hc
    · simp [if_neg hc] at hkeep
  have hsub : (searchSimilarChunks hits x').Sublist (searchSimilarChunks hits x) := by
    refine filterMap_sublist_of_imp _ _ hits ?_
    intro h b hb
    by_cases hc : x' ≤ 1 - h.distance
    · simp only [if_pos hc] at hb
      simpa [if_pos (le_trans hxx hc)] using hb
    · simp [if_neg hc] at hb
  exact ⟨hmem, hsub, hsub.length_le⟩

/-- C4 witness: two hits at distances 0.1 and 0.6, thresholds 0.3 and 0.8. -/
theorem search_min_similarity_filter_monotone_witness :
    ((3 : ℚ)/10 ≤ 8/10) ∧
    ((∀ p ∈ searchSimilarChunks
        [RawHit.mk ("h1").data ("alpha").data (ChromaMetadata.mk none none none) (1/10),
         RawHit.mk ("h2").data ("beta").data (ChromaMetadata.mk none none none) (6/10)]
        (3/10), (3 : ℚ)/10 ≤ p.2) ∧
      (searchSimilarChunks
        [RawHit.mk ("h1").data ("alpha").data (ChromaMetadata.mk none none none) (1/10),
         RawHit.mk ("h2").data ("beta").data (ChromaMetadata.mk none none none) (6/10)]
        (8/10)).Sublist (searchSimilarChunks
        [RawHit.mk ("h1").data ("alpha").data (ChromaMetadata.mk none none none) (1/10),
         RawHit.mk ("h2").data ("beta").data (ChromaMetadata.mk none none none) (6/10)]
        (3/10)) ∧
      (searchSimilarChunks
        [RawHit.mk ("h1").data ("alpha").data (ChromaMetadata.mk none none none) (1/10),
         RawHit.mk ("h2").data ("beta").data (ChromaMetadata.mk none none none) (6/10)]
        (8/10)).length ≤ (searchSimilarChunks
        [RawHit.mk ("h1").data ("alpha").data (ChromaMetadata.mk none none none) (1/10),
         RawHit.mk ("h2").data ("beta").data (ChromaMetadata.mk none none none) (6/10)]
        (3/10)).length) := by
  refine ⟨by norm_num, ?_⟩
  exact search_min_similarity_filter_monotone _ (3/10) (8/10) (by norm_num)

theorem createEmbeddings_none (api : List (List Char) → Option (List (List ℚ)))
    (texts : List (List Char)) (h : api texts = none) :
    createEmbeddings api texts =
      List.replicate texts.length (List.replicate 1536 (0 : ℚ)) := by
  unfold createEmbeddings
  rw [h]

/-- C7.  When the embedding API fails on every batch,
`_create_embeddings` still returns one vector per input text, each the
1536-dimensional zero vector, and `embed_chunks` still produces exactly
one embedded chunk per input chunk. -/
theorem embeddings_fallback_zero_vectors
    (api : List (List Char) → Option (List (List ℚ)))
    (batch_size : Nat) (texts : List (List Char)) (chunks : List DocumentChunk)
    (hbs : 0 < batch_size) (hapi : ∀ ts, api ts = none) :
    (createEmbeddings api texts).length = texts.length ∧
    (∀ v ∈ createEmbeddings api texts, v = List.replicate 1536 (0 : ℚ)) ∧
    (embedChunks api batch_size chunks).length = chunks.length := by
  refine ⟨?_, ?_, ?_⟩
  · rw [createEmbeddings_none api texts (hapi texts)]
    exact List.length_replicate _ _
  · intro v hv
    rw [createEmbeddings_none api texts (hapi texts)] at hv
    exact List.eq_of_mem_replicate hv
  · have key : ∀ fuel l, l.length ≤ fuel →
        (embedChunksAux api batch_size fuel l).length = l.length := by
      intro fuel
      induction fuel with
      | zero =>
          intro l hl
          rw [Nat.le_zero, List.length_eq_zero] at hl
          subst hl
          rfl
      | succ n ih =>
          intro l hl
          cases l with
          | nil => rfl
          | cons a t =>
              simp only [List.length_cons] at hl
              rw [embedChunksAux, List.length_append,
                ih _ (by
                  simp only [List.length_drop, List.length_cons]
                  omega)]
              rw [embedBatch, List.length_zipWith,
                createEmbeddings_none api _ (hapi _),
                List.length_replicate, List.length_map, List.length_drop]
              simp only [List.length_take, List.length_cons]
              omega
              exact List.cons_ne_nil a t
    exact key chunks.length chunks le_rfl

/-- C7 witness: a two-chunk list, batch size 10, always-failing API. -/
theorem embeddings_fallback_zero_vectors_witness :
    (0 < 10) ∧ (∀ ts : List (List Char), (fun _ => (none : Option (List (List ℚ)))) ts = none) ∧
    ((createEmbeddings (fun _ => none) [("t1").data, ("t2").data]).length = 2 ∧
      (∀ v ∈ createEmbeddings (fun _ => none) [("t1").data, ("t2").data],
        v = List.replicate 1536 (0 : ℚ)) ∧
      (embedChunks (fun _ => none) 10 [sampleChunk, sampleChunk]).length = 2) := by
  refine ⟨by norm_num, fun _ => rfl, ?_⟩
  exact embeddings_fallback_zero_vectors (fun _ => none) 10
    [("t1").data, ("t2").data] [sampleChunk, sampleChunk] (by norm_num) (fun _ => rfl)

/-- C5.  The confidence score equals the clamp to `[0,1]` of
`0.5 + (0.2 if ≥3 chunks else 0.1 if ≥1 else 0) + (0.1 if answer longer
than 500) + (0.1 if a numeric-unit pattern occurs) − (0.1 if one of the
four uncertainty phrases occurs)`, and it always lies in `[0,1]`. -/
theorem confidence_formula_and_clamped (chunks : List DocumentChunk)
    (analysis : List Char) :
    calculateConfidence chunks analysis =
      min (max ((1/2 : ℚ) +
        (if chunks.length ≥ 3 then 2/10 else if chunks.length ≥ 1 then 1/10 else 0) +
        (if analysis.length > 500 then 1/10 else 0) +
        (if hasNumericUnit analysis then 1/10 else 0) -
        (if uncertaintyPhrases.any (fun p => decide (p <:+: analysis)) then 1/10 else 0)) 0) 1 ∧
    0 ≤ calculateConfidence chunks analysis ∧ calculateConfidence chunks analysis ≤ 1 := by
  refine ⟨?_, ?_, ?_⟩
  · unfold calculateConfidence
    split_ifs <;> ring_nf
  · unfold calculateConfidence
    exact le_min (le_max_right _ _) (by norm_num)
  · exact min_le_right _ _

/-- C8.  The automatic news-inclusion decision returns `true` iff at
least one keyword of the combined families occurs in the lowercased
question; in particular `"최근 주가 전망"` triggers news inclusion. -/
theorem news_inclusion_iff_keyword_hit (question : List Char) :
    (shouldIncludeNews question = true ↔
      ∃ k ∈ allNewsKeywords, k <:+: lowerL question) ∧
    shouldIncludeNews ("최근 주가 전망").data = true := by
  constructor
  · unfold shouldIncludeNews
    simp only [ge_iff_le, decide_eq_true_eq, Nat.one_le_iff_ne_zero, ne_eq,
      List.length_eq_zero, List.filter_eq_nil_iff, not_forall, decide_eq_true_eq,
      exists_prop, not_not]
  · decide

/-- C9.  More than 10 questions are rejected with a client error (the
result does not depend on `processOne`, so no question is processed);
with `n ≤ 10` questions on an indexed document every question yields
exactly one entry, in order, so the results list has length `n`; and a
failing question is recorded as an error entry rather than aborting. -/
theorem batch_query_limit_sequential_per_question {ρ : Type}
    (processOne : List Char → Except (List Char) ρ)
    (docChunks : List DocumentChunk) (document_id : List Char)
    (questions : List (List Char)) :
    (10 < questions.length →
      batchQuery processOne docChunks document_id questions =
        Except.error (400, batchLimitMsg)) ∧
    (questions.length ≤ 10 → docChunks ≠ [] →
      batchQuery processOne docChunks document_id questions =
        Except.ok (BatchResponse.mk document_id questions.length
          (((questions.map (entryFor processOne)).filter (fun r => r.success)).length)
          (questions.map (entryFor processOne))) ∧
      (questions.map (entryFor processOne)).length = questions.length) ∧
    (∀ q e, processOne q = Except.error e →
      entryFor processOne q = BatchEntry.mk q false none (some e)) := by
  refine ⟨?_, ?_, ?_⟩
  · intro h
    unfold batchQuery
    rw [if_pos h]
  · intro hlen hdoc
    constructor
    · unfold batchQuery
      rw [if_neg (by omega), if_neg hdoc]
    · exact List.length_map _ _
  · intro q e he
    unfold entryFor
    rw [he]

/-- C9 witness: 11 copies of a question are rejected; a two-question
batch (one succeeding, one raising) yields two entries with the failure
recorded. -/
theorem batch_query_limit_sequential_per_question_witness :
    (10 < (List.replicate 11 ("q").data).length ∧
      batchQuery (fun _ => Except.ok (0 : Nat)) [sampleChunk] ("doc").data
        (List.replicate 11 ("q").data) = Except.error (400, batchLimitMsg)) ∧
    (([("good").data, ("bad").data] : List (List Char)).length ≤ 10 ∧
      ([sampleChunk] : List DocumentChunk) ≠ [] ∧
      batchQuery
          (fun q => if q = ("bad").data then Except.error ("oops").data
            else Except.ok (0 : Nat))
          [sampleChunk] ("doc").data [("good").data, ("bad").data] =
        Except.ok (BatchResponse.mk ("doc").data 2 1
          [BatchEntry.mk ("good").data true (some 0) none,
           BatchEntry.mk ("bad").data false none (some ("oops").data)])) := by
  constructor
  · refine ⟨by decide, ?_⟩
    exact (batch_query_limit_sequential_per_question
      (fun _ => Except.ok (0 : Nat)) [sampleChunk] ("doc").data
      (List.replicate 11 ("q").data)).1 (by decide)
  · refine ⟨by decide, by simp, ?_⟩
    have h := (batch_query_limit_sequential_per_question
      (fun q => if q = ("bad").data then Except.error ("oops").data
        else Except.ok (0 : Nat))
      [sampleChunk] ("doc").data [("good").data, ("bad").data]).2.1
      (by decide) (by simp)
    rw [h.1]
    rfl

theorem semStep_fits (tc : List Char → Nat) (maxTokens : Nat)
    (docId sec : List Char) (acc : ChunkAcc) (p : List Char)
    (ht : tc (if acc.current ≠ [] then acc.current ++ nlnl ++ p else p) ≤ maxTokens) :
    semStep tc maxTokens docId sec acc p =
      ChunkAcc.mk acc.chunks
        (if acc.current ≠ [] then acc.current ++ nlnl ++ p else p) acc.count := by
  unfold semStep
  rw [if_pos ht]

theorem semStep_flush (tc : List Char → Nat) (maxTokens : Nat)
    (docId sec : List Char) (acc : ChunkAcc) (p : List Char)
    (hc : acc.current ≠ [])
    (ht : ¬ tc (acc.current ++ nlnl ++ p) ≤ maxTokens) :
    semStep tc maxTokens docId sec acc p =
      ChunkAcc.mk (acc.chunks ++ [mkTextChunk docId sec acc.count acc.current])
        (getOverlapText acc.current ++ nlnl ++ p) (acc.count + 1) := by
  unfold semStep
  simp only [if_pos hc, if_neg ht, if_pos hc]

theorem semStep_overflow_first (tc : List Char → Nat) (maxTokens : Nat)
    (docId sec : List Char) (acc : ChunkAcc) (p : List Char)
    (hc : ¬ acc.current ≠ []) (ht : ¬ tc p ≤ maxTokens) :
    semStep tc maxTokens docId sec acc p = ChunkAcc.mk acc.chunks p acc.count := by
  unfold semStep
  simp only [if_neg hc, if_neg ht]

/-! ### C1: the token budget of `_semantic_chunking` -/

/-- C1 counterexample.  With the character-count tokenizer, budget 10
and section text `"aaaaa\n\nbbbbbb"`, the loop accepts the first
paragraph (5 ≤ 10), the second would overflow (13 > 10), so the buffer
is flushed and re-seeded with the overlap window — but the first
paragraph has no `"."`, so the overlap window is the whole flushed
buffer, and the final chunk `"aaaaa\n\nbbbbbb"` (13 tokens) exceeds the
budget while being two paragraphs, not one oversized paragraph: the
claim as stated is false, because the overlap-seeded buffer is never
re-checked against the budget. -/
theorem semantic_chunk_budget_counterexample :
    ¬ (∀ c ∈ semanticChunking (fun s => s.length) 10 ("aaaaa\n\nbbbbbb").data
          ("others").data ("D").data,
        (fun (s : List Char) => s.length) c.content ≤ 10 ∨
          (c.content ∈ paragraphsOf ("aaaaa\n\nbbbbbb").data ∧
            10 < (fun (s : List Char) => s.length) c.content)) := by
  decide

/-- C1 amended.  Every text chunk emitted by `_semantic_chunking`
either fits the token budget, or is a single (stripped) input
paragraph, or is an overlap-seeded buffer: the overlap window of some
previously flushed buffer joined by a blank line to a single input
paragraph (this third family is emitted without any budget
re-check). -/
theorem semantic_chunk_budget_amended (tc : List Char → Nat) (maxTokens : Nat)
    (content sec docId : List Char) :
    ∀ c ∈ semanticChunking tc maxTokens content sec docId,
      tc c.content ≤ maxTokens ∨
      c.content ∈ paragraphsOf content ∨
      ∃ prev p, p ∈ paragraphsOf content ∧
        c.content = getOverlapText prev ++ nlnl ++ p := by
  set P : List Char → Prop := fun s =>
    tc s ≤ maxTokens ∨ s ∈ paragraphsOf content ∨
      ∃ prev p, p ∈ paragraphsOf content ∧ s = getOverlapText prev ++ nlnl ++ p
    with hP
  have step : ∀ (acc : ChunkAcc) (p : List Char), (∀ ch ∈ acc.chunks, P ch.content) →
      (acc.current = [] ∨ P acc.current) → p ∈ paragraphsOf content →
      (∀ ch ∈ (semStep tc maxTokens docId sec acc p).chunks, P ch.content) ∧
        ((semStep tc maxTokens docId sec acc p).current = [] ∨
          P (semStep tc maxTokens docId sec acc p).current) := by
    intro acc p hch hcur hp
    by_cases ht : tc (if acc.current ≠ [] then acc.current ++ nlnl ++ p else p) ≤
        maxTokens
    · rw [semStep_fits tc maxTokens docId sec acc p ht]
      exact ⟨hch, Or.inr (Or.inl ht)⟩
    · by_cases hc : acc.current ≠ []
      · rw [if_pos hc] at ht
        rw [semStep_flush tc maxTokens docId sec acc p hc ht]
        refine ⟨?_, Or.inr (Or.inr (Or.inr ⟨acc.current, p, hp, rfl⟩))⟩
        intro ch hch'
        rcases List.mem_append.mp hch' with h | h
        · exact hch ch h
        · rcases List.mem_singleton.mp h with rfl
          rcases hcur with h0 | h0
          · exact absurd h0 hc
          · exact h0
      · rw [if_neg hc] at ht
        rw [semStep_overflow_first tc maxTokens docId sec acc p hc ht]
        exact ⟨hch, Or.inr (Or.inr (Or.inl hp))⟩
  have fold : ∀ (ps : List (List Char)) (acc : ChunkAcc),
      (∀ p ∈ ps, p ∈ paragraphsOf content) →
      (∀ ch ∈ acc.chunks, P ch.content) → (acc.current = [] ∨ P acc.current) →
      (∀ ch ∈ (ps.foldl (semStep tc maxTokens docId sec) acc).chunks, P ch.content) ∧
        ((ps.foldl (semStep tc maxTokens docId sec) acc).current = [] ∨
          P (ps.foldl (semStep tc maxTokens docId sec) acc).current) := by
    intro ps
    induction ps with
    | nil => intro acc _ h1 h2; exact ⟨h1, h2⟩
    | cons p pt ih =>
        intro acc hps h1 h2
        rw [List.foldl_cons]
        have hstep := step acc p h1 h2 (hps p (List.mem_cons_self p pt))
        exact ih _ (fun q hq => hps q (List.mem_cons_of_mem p hq)) hstep.1 hstep.2
  intro c hc
  unfold semanticChunking at hc
  have hfold := fold (paragraphsOf content) (ChunkAcc.mk [] [] 0)
    (fun p hp => hp) (by simp) (Or.inl rfl)
  set acc := (paragraphsOf content).foldl (semStep tc maxTokens docId sec)
    (ChunkAcc.mk [] [] 0) with hacc
  by_cases hcur : acc.current ≠ []
  · rw [if_pos hcur] at hc
    rcases List.mem_append.mp hc with h | h
    · exact hfold.1 c h
    · rcases List.mem_singleton.mp h with rfl
      rcases hfold.2 with h0 | h0
      · exact absurd h0 hcur
      · exact h0
  · rw [if_neg hcur] at hc
    exact hfold.1 c hc

/-- C1 amended witness: the final chunk of the counterexample document
is exactly an overlap-seeded buffer. -/
theorem semantic_chunk_budget_amended_witness :
    mkTextChunk ("D").data ("others").data 1 ("aaaaa\n\nbbbbbb").data ∈
      semanticChunking (fun s => s.length) 10 ("aaaaa\n\nbbbbbb").data
        ("others").data ("D").data ∧
    ((fun (s : List Char) => s.length)
        (mkTextChunk ("D").data ("others").data 1 ("aaaaa\n\nbbbbbb").data).content ≤ 10 ∨
      (mkTextChunk ("D").data ("others").data 1 ("aaaaa\n\nbbbbbb").data).content ∈
        paragraphsOf ("aaaaa\n\nbbbbbb").data ∨
      ∃ prev p, p ∈ paragraphsOf ("aaaaa\n\nbbbbbb").data ∧
        (mkTextChunk ("D").data ("others").data 1 ("aaaaa\n\nbbbbbb").data).content =
          getOverlapText prev ++ nlnl ++ p) := by
  have hm : mkTextChunk ("D").data ("others").data 1 ("aaaaa\n\nbbbbbb").data ∈
      semanticChunking (fun s => s.length) 10 ("aaaaa\n\nbbbbbb").data
        ("others").data ("D").data :=
    List.Mem.tail _ (List.Mem.head _)
  exact ⟨hm, semantic_chunk_budget_amended (fun s => s.length) 10
    ("aaaaa\n\nbbbbbb").data ("others").data ("D").data _ hm⟩

/-! ### C2: section extraction and overlap -/

/-- C2 counterexample.  On `"회사개요 사업현황 X\n\n"` the
`company_overview` pattern matches the span `[0, 11)` (everything up to
the blank line) and the `business_content` pattern — searched against
the original `content`, not the remainder — matches `[5, 11)`, inside
the text the first pattern already consumed: the extracted sections are
not pairwise non-overlapping spans. -/
theorem extract_sections_nonoverlap_counterexample :
    ¬ ((extractSectionSpans ("회사개요 사업현황 X\n\n").data).Pairwise
        (fun a b => a.2.1 + a.2.2 ≤ b.2.1 ∨ b.2.1 + b.2.2 ≤ a.2.1)) := by
  decide

/-- C2 amended.  Each pattern of `_extract_sections` is searched
against the original input (so extracted sections may overlap; the
removal of matched text only shrinks the remainder that becomes the
`others` section): every extracted non-`others` section is the slice of
the input at one of the pattern-match spans, and in particular a
contiguous infix of the input. -/
theorem extract_sections_sections_are_spans (content : List Char) :
    ∀ nm txt, (nm, txt) ∈ extractSections content → nm ≠ othersName →
      (∃ sl ∈ extractSectionSpans content,
        sl.1 = nm ∧ txt = sliceAt content sl.2.1 sl.2.2) ∧
      txt <:+: content := by
  intro nm txt hmem hnm
  have hcore : (nm, txt) ∈ extractSectionsCore content := by
    unfold extractSections at hmem
    rcases List.mem_append.mp hmem with h | h
    · exact h
    · exfalso
      by_cases hrem : pyStrip (remainingAfter content) ≠ []
      · rw [if_pos hrem] at h
        rcases List.mem_singleton.mp h with h'
        exact hnm (congrArg Prod.fst h')
      · rw [if_neg hrem] at h
        exact absurd h (List.not_mem_nil _)
  rcases List.mem_filterMap.mp hcore with ⟨np, hnp, hsome⟩
  cases hsearch : searchPattern np.2 content with
  | none => rw [hsearch] at hsome; exact absurd hsome (by simp)
  | some sl =>
      rw [hsearch] at hsome
      have hsome' : (np.1, sliceAt content sl.1 sl.2) = (nm, txt) :=
        Option.some.inj hsome
      injection hsome' with h1 h2
      subst h1
      subst h2
      constructor
      · refine ⟨(np.1, sl.1, sl.2), ?_, rfl, rfl⟩
        exact List.mem_filterMap.mpr ⟨np, hnp, by rw [hsearch]; rfl⟩
      · unfold sliceAt
        exact (( List.take_prefix sl.2 (content.drop sl.1)).isInfix).trans
          (( List.drop_suffix sl.1 content).isInfix)

/-- C2 amended witness: the `business_content` section of the
counterexample document is the slice at span `[5, 11)`, an infix of the
input. -/
theorem extract_sections_sections_are_spans_witness :
    ((("business_content").data, ("사업현황 X").data) ∈
      extractSections ("회사개요 사업현황 X\n\n").data) ∧
    (("business_content").data ≠ othersName) ∧
    ((∃ sl ∈ extractSectionSpans ("회사개요 사업현황 X\n\n").data,
        sl.1 = ("business_content").data ∧
        ("사업현황 X").data = sliceAt ("회사개요 사업현황 X\n\n").data sl.2.1 sl.2.2) ∧
      ("사업현황 X").data <:+: ("회사개요 사업현황 X\n\n").data) := by
  refine ⟨by decide, by decide, ?_⟩
  exact extract_sections_sections_are_spans ("회사개요 사업현황 X\n\n").data
    ("business_content").data ("사업현황 X").data (by decide) (by decide)

/-! ### C6: chunk id format, uniqueness, determinism -/

theorem digitChar_inj (d1 d2 : Nat) (h1 : d1 < 10) (h2 : d2 < 10)
    (h : Nat.digitChar d1 = Nat.digitChar d2) : d1 = d2 := by
  interval_cases d1 <;> interval_cases d2 <;> first | rfl | exact absurd h (by decide)

theorem natRepr_digits (n : Nat) : ∀ c ∈ natRepr n, c.isDigit = true := by
  intro c hc
  unfold natRepr at hc
  by_cases hn : n = 0
  · rw [if_pos hn] at hc
    rcases List.mem_singleton.mp hc with rfl
    decide
  · rw [if_neg hn] at hc
    rcases List.mem_map.mp hc with ⟨d, hd, rfl⟩
    rw [List.mem_reverse] at hd
    have hlt : d < 10 := Nat.digits_lt_base (by norm_num) hd
    interval_cases d <;> decide

theorem map_digitChar_inj (l1 l2 : List Nat) (h1 : ∀ d ∈ l1, d < 10)
    (h2 : ∀ d ∈ l2, d < 10)
    (h : l1.map Nat.digitChar = l2.map Nat.digitChar) : l1 = l2 := by
  induction l1 generalizing l2 with
  | nil => cases l2 with
    | nil => rfl
    | cons b t => exact absurd h (by simp)
  | cons a t ih =>
      cases l2 with
      | nil => exact absurd h (by simp)
      | cons b s =>
          rw [List.map_cons, List.map_cons] at h
          injection h with hh ht
          have hab : a = b := digitChar_inj a b
            (h1 a (List.mem_cons_self a t)) (h2 b (List.mem_cons_self b s)) hh
          rw [hab, ih s (fun d hd => h1 d (List.mem_cons_of_mem a hd))
            (fun d hd => h2 d (List.mem_cons_of_mem b hd)) ht]

theorem natRepr_inj (i j : Nat) (h : natRepr i = natRepr j) : i = j := by
  have key : ∀ n, n ≠ 0 → natRepr n ≠ ['0'] := by
    intro n hn hcontra
    unfold natRepr at hcontra
    rw [if_neg hn] at hcontra
    have hlen : (Nat.digits 10 n).reverse.length = 1 := by
      have := congrArg List.length hcontra
      simpa using this
    rcases List.length_eq_one.mp hlen with ⟨d, hd⟩
    rw [hd] at hcontra
    simp only [List.map_cons, List.map_nil] at hcontra
    have hd10 : d < 10 := by
      refine @Nat.digits_lt_base 10 n d (by norm_num) ?_
      rw [← List.mem_reverse, hd]
      exact List.mem_cons_self d []
    have hd0 : d = 0 := digitChar_inj d 0 hd10 (by norm_num)
      (by injection hcontra)
    have hdig : Nat.digits 10 n = [0] := by
      rw [← List.reverse_inj, hd, hd0]
      rfl
    have := Nat.ofDigits_digits 10 n
    rw [hdig] at this
    simp [Nat.ofDigits] at this
    exact hn this.symm
  by_cases hi : i = 0 <;> by_cases hj : j = 0
  · rw [hi, hj]
  · exfalso
    apply key j hj
    rw [← h, natRepr, if_pos hi]
  · exfalso
    apply key i hi
    rw [h, natRepr, if_pos hj]
  · unfold natRepr at h
    rw [if_neg hi, if_neg hj] at h
    have hdig := map_digitChar_inj _ _
      (fun d hd => Nat.digits_lt_base (by norm_num) (List.mem_reverse.mp hd))
      (fun d hd => Nat.digits_lt_base (by norm_num) (List.mem_reverse.mp hd)) h
    rw [List.reverse_inj] at hdig
    have hi' := Nat.ofDigits_digits 10 i
    rw [hdig, Nat.ofDigits_digits] at hi'
    exact hi'.symm

theorem takeWhile_all_append (p : Char → Bool) (l : List Char) (c : Char)
    (r : List Char) (hl : ∀ x ∈ l, p x = true) (hc : p c = false) :
    (l ++ c :: r).takeWhile p = l ∧ (l ++ c :: r).dropWhile p = c :: r := by
  induction l with
  | nil =>
      constructor
      · rw [List.nil_append, List.takeWhile_cons, hc]
        simp
      · rw [List.nil_append, List.dropWhile_cons, hc]
        simp
  | cons a t ih =>
      have ha : p a = true := hl a (List.mem_cons_self a t)
      have iht := ih (fun x hx => hl x (List.mem_cons_of_mem a hx))
      constructor
      · rw [List.cons_append, List.takeWhile_cons, ha]
        simp [iht.1]
      · rw [List.cons_append, List.dropWhile_cons, ha]
        simp [iht.2]

/-- Cancellation around the final `_`-separated decimal index of a
chunk id: the digit suffix and the underscore pin the decomposition. -/
theorem append_digitSuffix_inj (u u' v v' : List Char)
    (hv : ∀ c ∈ v, c.isDigit = true) (hv' : ∀ c ∈ v', c.isDigit = true)
    (h : u ++ '_' :: v = u' ++ '_' :: v') : u = u' ∧ v = v' := by
  have hrev : v.reverse ++ '_' :: u.reverse = v'.reverse ++ '_' :: u'.reverse := by
    have := congrArg List.reverse h
    simpa [List.reverse_append] using this
  have hvr : ∀ x ∈ v.reverse, x.isDigit = true :=
    fun x hx => hv x (List.mem_reverse.mp hx)
  have hvr' : ∀ x ∈ v'.reverse, x.isDigit = true :=
    fun x hx => hv' x (List.mem_reverse.mp hx)
  have hus : Char.isDigit '_' = false := by decide
  have h1 := takeWhile_all_append Char.isDigit v.reverse '_' u.reverse hvr hus
  have h2 := takeWhile_all_append Char.isDigit v'.reverse '_' u'.reverse hvr' hus
  have hveq : v.reverse = v'.reverse := by
    rw [← h1.1, ← h2.1, hrev]
  have hueq : ('_' :: u.reverse) = ('_' :: u'.reverse) := by
    rw [← h1.2, ← h2.2, hrev]
  injection hueq with _ hu
  exact ⟨List.reverse_inj.mp hu, List.reverse_inj.mp hveq⟩

theorem mkChunkId_inj (docId ty ty' sec sec' : List Char) (i j : Nat)
    (hty : ty = tableTok ∨ ty = textTok) (hty' : ty' = tableTok ∨ ty' = textTok)
    (h : mkChunkId docId ty sec i = mkChunkId docId ty' sec' j) :
    ty = ty' ∧ sec = sec' ∧ i = j := by
  unfold mkChunkId at h
  obtain ⟨hu, hv⟩ := append_digitSuffix_inj _ _ _ _ (natRepr_digits i)
    (natRepr_digits j) h
  have hij : i = j := natRepr_inj i j hv
  rw [List.append_assoc, List.append_assoc] at hu
  have hu2 := List.append_cancel_left hu
  simp only [List.cons_append] at hu2
  injection hu2 with _ hu3
  have hts : ty ++ '_' :: sec = ty' ++ '_' :: sec' := by
    simpa using hu3
  rcases hty with rfl | rfl <;> rcases hty' with rfl | rfl
  · exact ⟨rfl, by injection List.append_cancel_left hts, hij⟩
  · exfalso
    rw [show tableTok = 't' :: 'a' :: 'b' :: 'l' :: 'e' :: [] from rfl,
      show textTok = 't' :: 'e' :: 'x' :: 't' :: [] from rfl] at hts
    simp only [List.cons_append, List.nil_append] at hts
    injection hts with _ h2
    injection h2 with hbad _
    exact absurd hbad (by decide)
  · exfalso
    rw [show tableTok = 't' :: 'a' :: 'b' :: 'l' :: 'e' :: [] from rfl,
      show textTok = 't' :: 'e' :: 'x' :: 't' :: [] from rfl] at hts
    simp only [List.cons_append, List.nil_append] at hts
    injection hts with _ h2
    injection h2 with hbad _
    exact absurd hbad (by decide)
  · exact ⟨rfl, by injection List.append_cancel_left hts, hij⟩

/-- `filterMap` over a list whose `key` projections are distinct
produces no duplicates, provided equal outputs force equal keys. -/
theorem nodup_filterMap_key {α β : Type} (key : α → Nat) (f : α → Option β)
    (l : List α)
    (hinj : ∀ a ∈ l, ∀ a' ∈ l, ∀ b, f a = some b → f a' = some b → key a = key a')
    (hl : (l.map key).Nodup) : (l.filterMap f).Nodup := by
  induction l with
  | nil => simp
  | cons a t ih =>
      rw [List.map_cons, List.nodup_cons] at hl
      rw [List.filterMap_cons]
      have iht := ih
        (fun x hx y hy b hb hb' =>
          hinj x (List.mem_cons_of_mem a hx) y (List.mem_cons_of_mem a hy) b hb hb')
        hl.2
      cases hf : f a with
      | none => exact iht
      | some b =>
          rw [List.nodup_cons]
          refine ⟨?_, iht⟩
          intro hb
          rcases List.mem_filterMap.mp hb with ⟨a', ha', hfa'⟩
          have hkey := hinj a (List.mem_cons_self a t) a'
            (List.mem_cons_of_mem a ha') b hf hfa'
          exact hl.1 (hkey ▸ List.mem_map_of_mem key ha')

theorem chunkTables_shape (content sec docId : List Char) :
    ∀ c ∈ chunkTables content sec docId,
      c.chunk_type = tableTok ∧ c.sectionName = sec ∧
        ∃ i, c.chunk_id = mkChunkId docId tableTok sec i := by
  intro c hcm
  rcases List.mem_filterMap.mp hcm with ⟨it, _, hsome⟩
  by_cases hlen : 50 < (pyStrip it.2).length
  · rw [if_pos hlen] at hsome
    obtain rfl := Option.some.inj hsome
    exact ⟨rfl, rfl, it.1, rfl⟩
  · rw [if_neg hlen] at hsome
    exact absurd hsome (by simp)

theorem chunkTables_ids_nodup (content sec docId : List Char) :
    ((chunkTables content sec docId).map DocumentChunk.chunk_id).Nodup := by
  unfold chunkTables
  rw [List.map_filterMap]
  apply nodup_filterMap_key Prod.fst
  · intro a _ a' _ b hb hb'
    by_cases hc : 50 < (pyStrip a.2).length
    · rw [if_pos hc] at hb
      by_cases hc' : 50 < (pyStrip a'.2).length
      · rw [if_pos hc'] at hb'
        have h1 := Option.some.inj hb
        have h2 := Option.some.inj hb'
        have : mkChunkId docId tableTok sec a.1 = mkChunkId docId tableTok sec a'.1 := by
          rw [show mkChunkId docId tableTok sec a.1 =
            (mkTableChunk docId sec a.1 (pyStrip a.2)).chunk_id from rfl, h1, ← h2]
          rfl
        exact (mkChunkId_inj docId tableTok tableTok sec sec a.1 a'.1
          (Or.inl rfl) (Or.inl rfl) this).2.2
      · rw [if_neg hc'] at hb'
        exact absurd hb' (by simp)
    · rw [if_neg hc] at hb
      exact absurd hb (by simp)
  · rw [List.enum_map_fst]
    exact List.nodup_range _

theorem semanticChunking_ids_shape (tc : List Char → Nat) (maxTokens : Nat)
    (content sec docId : List Char) :
    (∃ k, (semanticChunking tc maxTokens content sec docId).map
        DocumentChunk.chunk_id =
      (List.range k).map (fun i => mkChunkId docId textTok sec i)) ∧
    (∀ c ∈ semanticChunking tc maxTokens content sec docId,
      c.chunk_type = textTok ∧ c.sectionName = sec) := by
  set f : Nat → List Char := fun i => mkChunkId docId textTok sec i with hf
  set Inv : ChunkAcc → Prop := fun acc =>
    acc.chunks.map DocumentChunk.chunk_id = (List.range acc.count).map f ∧
      ∀ c ∈ acc.chunks, c.chunk_type = textTok ∧ c.sectionName = sec
    with hInvDef
  have step : ∀ (acc : ChunkAcc) (p : List Char), Inv acc →
      Inv (semStep tc maxTokens docId sec acc p) := by
    intro acc p hInv
    by_cases ht : tc (if acc.current ≠ [] then acc.current ++ nlnl ++ p else p) ≤
        maxTokens
    · rw [semStep_fits tc maxTokens docId sec acc p ht]
      exact hInv
    · by_cases hc : acc.current ≠ []
      · rw [if_pos hc] at ht
        rw [semStep_flush tc maxTokens docId sec acc p hc ht]
        refine ⟨?_, ?_⟩
        · show (acc.chunks ++ [mkTextChunk docId sec acc.count acc.current]).map
            DocumentChunk.chunk_id = (List.range (acc.count + 1)).map f
          rw [List.map_append, hInv.1, List.range_succ, List.map_append]
          rfl
        · intro c hcm
          rcases List.mem_append.mp hcm with h | h
          · exact hInv.2 c h
          · rcases List.mem_singleton.mp h with rfl
            exact ⟨rfl, rfl⟩
      · rw [if_neg hc] at ht
        rw [semStep_overflow_first tc maxTokens docId sec acc p hc ht]
        exact hInv
  have fold : ∀ (ps : List (List Char)) (acc : ChunkAcc), Inv acc →
      Inv (ps.foldl (semStep tc maxTokens docId sec) acc) := by
    intro ps
    induction ps with
    | nil => intro acc h; exact h
    | cons p pt ih =>
        intro acc h
        rw [List.foldl_cons]
        exact ih _ (step acc p h)
  have hInv := fold (paragraphsOf content) (ChunkAcc.mk [] [] 0)
    ⟨rfl, by simp⟩
  unfold semanticChunking
  set acc := (paragraphsOf content).foldl (semStep tc maxTokens docId sec)
    (ChunkAcc.mk [] [] 0) with hacc
  by_cases hcur : acc.current ≠ []
  · rw [if_pos hcur]
    constructor
    · refine ⟨acc.count + 1, ?_⟩
      rw [List.map_append, hInv.1, List.range_succ, List.map_append]
      rfl
    · intro c hcm
      rcases List.mem_append.mp hcm with h | h
      · exact hInv.2 c h
      · rcases List.mem_singleton.mp h with rfl
        exact ⟨rfl, rfl⟩
  · rw [if_neg hcur]
    exact ⟨⟨acc.count, hInv.1⟩, hInv.2⟩

theorem semanticChunking_ids_nodup (tc : List Char → Nat) (maxTokens : Nat)
    (content sec docId : List Char) :
    ((semanticChunking tc maxTokens content sec docId).map
      DocumentChunk.chunk_id).Nodup := by
  rcases (semanticChunking_ids_shape tc maxTokens content sec docId).1 with ⟨k, hk⟩
  rw [hk]
  refine List.Nodup.map_on ?_ (List.nodup_range k)
  intro x _ y _ hxy
  exact (mkChunkId_inj docId textTok textTok sec sec x y
    (Or.inr rfl) (Or.inr rfl) hxy).2.2

theorem processSection_shape (tc : List Char → Nat) (maxTokens : Nat)
    (content sec docId : List Char) :
    ∀ c ∈ processSection tc maxTokens content sec docId,
      ∃ ty i, (ty = tableTok ∨ ty = textTok) ∧ c.chunk_type = ty ∧
        c.sectionName = sec ∧ c.chunk_id = mkChunkId docId ty sec i := by
  intro c hcm
  unfold processSection at hcm
  rcases List.mem_append.mp hcm with h | h
  · by_cases hct : containsTable content
    · rw [if_pos hct] at h
      rcases chunkTables_shape content sec docId c h with ⟨h1, h2, i, h3⟩
      exact ⟨tableTok, i, Or.inl rfl, h1, h2, h3⟩
    · rw [if_neg hct] at h
      exact absurd h (List.not_mem_nil c)
  · set content2 := if containsTable content then removeTables content else content
    by_cases hne : pyStrip content2 ≠ []
    · rw [if_pos hne] at h
      have hshape := (semanticChunking_ids_shape tc maxTokens content2 sec docId).2 c h
      rcases (semanticChunking_ids_shape tc maxTokens content2 sec docId).1 with ⟨k, hk⟩
      have hidmem : c.chunk_id ∈ (semanticChunking tc maxTokens content2 sec docId).map
          DocumentChunk.chunk_id := List.mem_map_of_mem DocumentChunk.chunk_id h
      rw [hk] at hidmem
      rcases List.mem_map.mp hidmem with ⟨i, _, hi⟩
      exact ⟨textTok, i, Or.inr rfl, hshape.1, hshape.2, hi.symm⟩
    · rw [if_neg hne] at h
      exact absurd h (List.not_mem_nil c)

theorem processSection_ids_nodup (tc : List Char → Nat) (maxTokens : Nat)
    (content sec docId : List Char) :
    ((processSection tc maxTokens content sec docId).map
      DocumentChunk.chunk_id).Nodup := by
  unfold processSection
  rw [List.map_append, List.nodup_append]
  refine ⟨?_, ?_, ?_⟩
  · by_cases hct : containsTable content
    · rw [if_pos hct]
      exact chunkTables_ids_nodup content sec docId
    · rw [if_neg hct]
      simp
  · set content2 := if containsTable content then removeTables content else content
    by_cases hne : pyStrip content2 ≠ []
    · rw [if_pos hne]
      exact semanticChunking_ids_nodup tc maxTokens content2 sec docId
    · rw [if_neg hne]
      simp
  · intro x hx hx'
    by_cases hct : containsTable content
    on_goal 2 =>
      rw [if_neg hct] at hx
      exact absurd hx (by simp)
    rw [if_pos hct] at hx
    rcases List.mem_map.mp hx with ⟨c, hc, rfl⟩
    rcases chunkTables_shape content sec docId c hc with ⟨_, _, i, hid⟩
    set content2 := if containsTable content then removeTables content else content
    by_cases hne : pyStrip content2 ≠ []
    on_goal 2 =>
      rw [if_neg hne] at hx'
      exact absurd hx' (by simp)
    rw [if_pos hne] at hx'
    rcases (semanticChunking_ids_shape tc maxTokens content2 sec docId).1 with ⟨k, hk⟩
    rw [hk] at hx'
    rcases List.mem_map.mp hx' with ⟨j, _, hj⟩
    have heq2 : mkChunkId docId tableTok sec i = mkChunkId docId textTok sec j := by
      rw [← hid, ← hj]
    exact absurd (mkChunkId_inj docId tableTok textTok sec sec i j
      (Or.inl rfl) (Or.inr rfl) heq2).1 (by decide)

theorem filterMap_pair_names_sublist {α β γ : Type} (l : List (α × β))
    (F : α × β → Option γ) :
    ((l.filterMap (fun np => (F np).map (fun v => (np.1, v)))).map Prod.fst).Sublist
      (l.map Prod.fst) := by
  induction l with
  | nil => simp
  | cons np t ih =>
      rw [List.map_cons]
      cases hF : F np with
      | none =>
          rw [List.filterMap_cons_none (by rw [hF]; rfl)]
          exact ih.trans (List.sublist_cons_self _ _)
      | some v =>
          rw [List.filterMap_cons_some (by rw [hF]; rfl)]
          rw [List.map_cons]
          exact ih.cons₂ np.1

theorem extractSections_names_nodup (content : List Char) :
    ((extractSections content).map Prod.fst).Nodup := by
  have hcore : ((extractSectionsCore content).map Prod.fst).Sublist
      (sectionPatterns.map Prod.fst) := by
    unfold extractSectionsCore
    have := filterMap_pair_names_sublist sectionPatterns
      (fun np => (searchPattern np.2 content).map (fun sl => sliceAt content sl.1 sl.2))
    simp only [Option.map_map] at this ⊢
    convert this using 2
  have hpat : (sectionPatterns.map Prod.fst).Nodup := by decide
  have hothers : othersName ∉ sectionPatterns.map Prod.fst := by decide
  unfold extractSections
  rw [List.map_append, List.nodup_append]
  refine ⟨hcore.nodup hpat, ?_, ?_⟩
  · by_cases hrem : pyStrip (remainingAfter content) ≠ []
    · rw [if_pos hrem]
      simp
    · rw [if_neg hrem]
      simp
  · intro x hx hx'
    by_cases hrem : pyStrip (remainingAfter content) ≠ []
    on_goal 2 =>
      rw [if_neg hrem] at hx'
      exact absurd hx' (by simp)
    rw [if_pos hrem] at hx'
    simp only [List.map_cons, List.map_nil, List.mem_singleton] at hx'
    subst hx'
    exact hothers (hcore.subset hx)

/-- C6.  Every chunk id produced by `chunk_document` has the exact form
`{document_id}_{type}_{section}_{index}` with `type` one of
`table`/`text` and `section` one of the extracted section names; the
ids are pairwise distinct within one call; and the text-chunk indices
of each section restart from 0 (`chunk_count` resets per section; the
id list of a section's semantic chunking is exactly
`0, 1, …, k-1`).  Determinism holds because the model is a pure
function of `(content, document_id)` (and the tokenizer parameter). -/
theorem chunk_ids_format_unique (tc : List Char → Nat) (maxTokens : Nat)
    (content docId : List Char) :
    (∀ c ∈ chunkDocument tc maxTokens content docId,
      ∃ ty sec i, (ty = tableTok ∨ ty = textTok) ∧ c.chunk_type = ty ∧
        c.sectionName = sec ∧ sec ∈ (extractSections content).map Prod.fst ∧
        c.chunk_id = mkChunkId docId ty sec i) ∧
    ((chunkDocument tc maxTokens content docId).map DocumentChunk.chunk_id).Nodup ∧
    (∀ content' sec' docId', ∃ k,
      (semanticChunking tc maxTokens content' sec' docId').map
        DocumentChunk.chunk_id =
        (List.range k).map (fun i => mkChunkId docId' textTok sec' i)) := by
  refine ⟨?_, ?_, ?_⟩
  · intro c hcm
    unfold chunkDocument at hcm
    rcases List.mem_flatMap.mp hcm with ⟨nc, hnc, hc⟩
    rcases processSection_shape tc maxTokens nc.2 nc.1 docId c hc with
      ⟨ty, i, hty, h1, h2, h3⟩
    exact ⟨ty, nc.1, i, hty, h1, h2, List.mem_map_of_mem Prod.fst hnc, h3⟩
  · unfold chunkDocument
    rw [List.map_flatMap, List.nodup_flatMap]
    refine ⟨fun nc _ => processSection_ids_nodup tc maxTokens nc.2 nc.1 docId, ?_⟩
    have hnames := extractSections_names_nodup content
    rw [List.Nodup, List.pairwise_map] at hnames
    refine hnames.imp ?_
    intro a b hab
    intro x hxa hxb
    rcases List.mem_map.mp hxa with ⟨c, hc, rfl⟩
    rcases List.mem_map.mp hxb with ⟨c', hc', heq⟩
    rcases processSection_shape tc maxTokens a.2 a.1 docId c hc with
      ⟨ty, i, hty, _, _, hid⟩
    rcases processSection_shape tc maxTokens b.2 b.1 docId c' hc' with
      ⟨ty', j, hty', _, _, hid'⟩
    have : mkChunkId docId ty a.1 i = mkChunkId docId ty' b.1 j := by
      rw [← hid, ← heq]
      exact hid'
    exact hab (mkChunkId_inj docId ty ty' a.1 b.1 i j hty hty' this).2.1
  · intro content' sec' docId'
    exact (semanticChunking_ids_shape tc maxTokens content' sec' docId').1

/-- C6 witness: the two-chunk document of the other witnesses. -/
theorem chunk_ids_format_unique_witness :
    (mkTextChunk ("D").data ("others").data 0 ("aaaaa").data ∈
      chunkDocument (fun s => s.length) 10 ("aaaaa\n\nbbbbbb").data ("D").data ∧
      ∃ ty sec i, (ty = tableTok ∨ ty = textTok) ∧
        (mkTextChunk ("D").data ("others").data 0 ("aaaaa").data).chunk_type = ty ∧
        (mkTextChunk ("D").data ("others").data 0 ("aaaaa").data).sectionName = sec ∧
        sec ∈ (extractSections ("aaaaa\n\nbbbbbb").data).map Prod.fst ∧
        (mkTextChunk ("D").data ("others").data 0 ("aaaaa").data).chunk_id =
          mkChunkId ("D").data ty sec i) ∧
    ((chunkDocument (fun s => s.length) 10 ("aaaaa\n\nbbbbbb").data ("D").data).map
      DocumentChunk.chunk_id).Nodup ∧
    (∃ k, (semanticChunking (fun s => s.length) 10 ("aaaaa\n\nbbbbbb").data
        ("others").data ("D").data).map DocumentChunk.chunk_id =
      (List.range k).map (fun i => mkChunkId ("D").data textTok ("others").data i)) := by
  have hm : mkTextChunk ("D").data ("others").data 0 ("aaaaa").data ∈
      chunkDocument (fun s => s.length) 10 ("aaaaa\n\nbbbbbb").data ("D").data :=
    List.Mem.head _
  refine ⟨⟨hm, ?_⟩, ?_, ?_⟩
  · exact (chunk_ids_format_unique (fun s => s.length) 10
      ("aaaaa\n\nbbbbbb").data ("D").data).1 _ hm
  · exact (chunk_ids_format_unique (fun s => s.length) 10
      ("aaaaa\n\nbbbbbb").data ("D").data).2.1
  · exact (chunk_ids_format_unique (fun s => s.length) 10
      ("aaaaa\n\nbbbbbb").data ("D").data).2.2 ("aaaaa\n\nbbbbbb").data
      ("others").data ("D").data

end Gongsi
